import Mathlib

/-!
Verification development for the browser-manager repository.

The definitions below are shallow embeddings of the TypeScript sources:
  * `compareVersions`, the dotted-version comparator shared by
    `chromium-config.ts` and `chrome-config.ts`;
  * the Chromium build lookup (`fetchChromiumBuildNumber`, both the linear
    page-scan variant and the binary-search variant) and the artifact probe
    (`findNearestAvailableBuild`);
  * the per-resolver version cache (`getCachedVersion` in
    `browser-base-config.ts`);
  * Chrome's curated-table resolution (`findClosestVersion`);
  * Arc's `getLatestVersion`;
  * the `replaceTemplate` substitution used by `getDownloadUrl`
    (Brave's templates).

Network effects are abstracted by passing the data a call would fetch as an
argument: a release feed is the full newest-first catalog (one page fetch
returns a 50-element slice), an artifact HEAD check is a boolean oracle on
build positions, and a cache-miss fetch is the `Except` value the upstream
call would produce.
-/

namespace BrowserManager

/-! ## Version comparator

Source (`chromium-config.ts` lines 23-33, same function in
`chrome-config.ts`):

```
function compareVersions(v1: string, v2: string): number {
  const parts1 = v1.split('.').map(Number)
  const parts2 = v2.split('.').map(Number)
  for (let i = 0; i < Math.max(parts1.length, parts2.length); i++) {
    const part1 = parts1[i] || 0
    const part2 = parts2[i] || 0
    if (part1 !== part2) return part1 - part2
  }
  return 0
}
```
-/

/-- Model of `String.split('.')` on the character list: every `'.'` separates two
(possibly empty) segments, exactly as in JavaScript
(`"".split('.') = [""]`, `"1.".split('.') = ["1",""]`). -/
def splitChars : List Char → List (List Char)
  | [] => [[]]
  | c :: cs =>
    if c = '.' then [] :: splitChars cs
    else
      match splitChars cs with
      | seg :: rest => (c :: seg) :: rest
      | [] => [[c]]

/-- The dot-separated segments of a version string. -/
def splitDots (s : String) : List String :=
  (splitChars s.data).map String.mk

/-- Model of `Number(segment) || 0` for a dot-split segment: a nonempty all-digit
segment parses as its decimal value; anything else (empty segment,
non-numeric segment, `NaN`) degrades to `0`, which is also what the
`|| 0` in the comparison loop produces for a missing index. -/
def parseSegment (s : String) : Int :=
  if s.data ≠ [] ∧ s.data.all (fun c => c.isDigit) then
    Int.ofNat (s.data.foldl (fun acc c => acc * 10 + (c.toNat - '0'.toNat)) 0)
  else 0

/-- The tail of the comparison loop once the first list is exhausted:
`part1` is always `0`, so the loop returns `0 - part2` at the first nonzero
remaining segment of the second list. -/
def cmpZeros : List Int → Int
  | [] => 0
  | y :: ys => if (0 : Int) ≠ y then 0 - y else cmpZeros ys

/-- The comparison loop of `compareVersions`: walk both segment lists up to
the longer length, a missing segment counting as `0`; at the first
difference return `part1 - part2`, otherwise `0`. -/
def cmpSegs : List Int → List Int → Int
  | [], ys => cmpZeros ys
  | x :: xs, [] => if x ≠ 0 then x - 0 else cmpSegs xs []
  | x :: xs, y :: ys => if x ≠ y then x - y else cmpSegs xs ys

/-- Source `compareVersions`: split on `'.'`, parse each segment,
compare position by position. -/
def compareVersions (v1 v2 : String) : Int :=
  cmpSegs ((splitDots v1).map parseSegment) ((splitDots v2).map parseSegment)

/-! Spec-side comparator for claim C5, written from the spec's words:
"lexicographic comparison of the two versions' integer-sequence denotations
zero-padded to the longer length, where each dot-separated segment denotes
its parsed integer and a missing or non-numeric segment denotes 0". -/

/-- Zero-pad a segment list on the right to length `n`. -/
def padTo (l : List Int) (n : Nat) : List Int :=
  l ++ List.replicate (n - l.length) 0

/-- Lexicographic comparison of two equal-length integer sequences. -/
def lexOrdering : List Int → List Int → Ordering
  | x :: xs, y :: ys =>
    if x < y then .lt else if y < x then .gt else lexOrdering xs ys
  | _, _ => .eq

/-- The spec's comparator: denote each version as its integer sequence,
zero-pad both to the longer length, compare lexicographically. -/
def specCompareVersions (a b : String) : Ordering :=
  let da := (splitDots a).map parseSegment
  let db := (splitDots b).map parseSegment
  let n := max da.length db.length
  lexOrdering (padTo da n) (padTo db n)

/-! ## Release feed and Chromium build lookup

Source: `chromium-config.ts`. The release feed
(`chromiumdash.appspot.com/fetch_releases`) is modelled as the full
newest-first catalog for the queried channel/platform, a `List Release`;
`fetchReleases(offset)` returns the 50-element slice starting at `offset`.
The artifact HEAD probe against the snapshot bucket is modelled as a
boolean oracle on build positions (for a fixed platform/arch the snapshot
URL is determined by the build position alone). -/

/-- One entry of a release-feed page:
`{ version, chromium_main_branch_position }`. -/
structure Release where
  version : String
  position : Int
deriving DecidableEq

/-- Page size (`num` query parameter): page size, 50 in the source. -/
def numResults : Nat := 50

/-- Source `maxOffset = 1000`: bound of the linear paginated search. -/
def maxOffset : Nat := 1000

/-- Source `maxAttempts = 5`: bound of the artifact probe sweep. -/
def maxAttempts : Nat := 5

/-- Placeholder release used only as the (unreachable) default of
`List.getLastD` on pages already known to be nonempty. -/
def dummyRelease : Release := ⟨"", 0⟩

/-- Model of `fetchReleases(offset)`: the feed page at `offset`, i.e. up to
`numResults` releases starting at index `offset` of the catalog. -/
def fetchPage (feed : List Release) (offset : Nat) : List Release :=
  (feed.drop offset).take numResults

/-- The error outcomes of the Chromium build lookup:
`versionNotFound` is the `No build found for version ...` throw,
`noArtifactNearPosition` is the `No valid build found near ...` throw. -/
inductive ResolveError where
  | versionNotFound
  | noArtifactNearPosition
deriving DecidableEq

/-- The probe loop of `findNearestAvailableBuild`
(`for (let i = 0; i < maxAttempts; i++)`), iterated over the list of
remaining attempt indices: at attempt `i` test `b + i` then `b - i`
(`testUrls = [testBuildUp, testBuildDown]`), returning the first build
whose HEAD check succeeds. -/
def probeGo (ex : Int → Bool) (b : Int) : List Nat → Except ResolveError Int
  | [] => .error .noArtifactNearPosition
  | i :: rest =>
    if ex (b + i) then .ok (b + i)
    else if ex (b - i) then .ok (b - i)
    else probeGo ex b rest

/-- Source `findNearestAvailableBuild`: probe positions `b ± i` for
`i = 0, …, maxAttempts - 1`; the attempt indices of the `for` loop are
exactly `List.range maxAttempts`. -/
def findNearestAvailableBuild (ex : Int → Bool) (b : Int) : Except ResolveError Int :=
  probeGo ex b (List.range maxAttempts)

/-- Claim-side probe order (C2): `b+0, b-0, b+1, b-1, …, b+4, b-4`. -/
def probeSequence (b : Int) : List Int :=
  (List.range maxAttempts).flatMap (fun i => [b + i, b - i])

/-- The paginated `while (offset < maxOffset)` loop of the linear-scan
`fetchChromiumBuildNumber`, iterated over the list of offsets the loop
visits (`offset = 0, 50, …` while `offset < maxOffset`; the list end is
the `offset < maxOffset` exit). Each iteration keeps the source's
data-driven exits: stop on an empty page, return the probe result on an
exact match, stop when the oldest release of the page is strictly older
than the target (overshoot). -/
def linearLoop (feed : List Release) (ex : Int → Bool) (v : String) :
    List Nat → Except ResolveError Int
  | [] => .error .versionNotFound
  | offset :: rest =>
    let releases := fetchPage feed offset
    if releases.isEmpty then .error .versionNotFound
    else
      match releases.find? (fun r => r.version == v) with
      | some m => findNearestAvailableBuild ex m.position
      | none =>
        if compareVersions (releases.getLastD dummyRelease).version v < 0 then
          .error .versionNotFound
        else linearLoop feed ex v rest

/-- The offsets visited by the `while (offset < maxOffset)` loop when it
never breaks early: `0, 50, …, 950`. -/
def pageOffsets : List Nat :=
  (List.range (maxOffset / numResults)).map (fun j => numResults * j)

/-- Linear-scan `fetchChromiumBuildNumber` (`chromium-config.ts` 35-111):
first scan the recent-releases page (offset 0) for an exact version match,
then run the bounded paginated search; on a match, resolve the branch
position through the artifact probe. -/
def fetchChromiumBuildNumber (feed : List Release) (ex : Int → Bool)
    (v : String) : Except ResolveError Int :=
  match (fetchPage feed 0).find? (fun r => r.version == v) with
  | some m => findNearestAvailableBuild ex m.position
  | none => linearLoop feed ex v pageOffsets

/-- The feed-search phase of the linear variant without the probe:
same page walk as `linearLoop`, returning the matched branch position. -/
def feedSearchLoop (feed : List Release) (v : String) :
    List Nat → Option Int
  | [] => none
  | offset :: rest =>
    let releases := fetchPage feed offset
    if releases.isEmpty then none
    else
      match releases.find? (fun r => r.version == v) with
      | some m => some m.position
      | none =>
        if compareVersions (releases.getLastD dummyRelease).version v < 0 then
          none
        else feedSearchLoop feed v rest

/-- The branch position the linear variant's feed search settles on, if
any (recent-releases check followed by the paginated search). -/
def feedSearchResult (feed : List Release) (v : String) : Option Int :=
  match (fetchPage feed 0).find? (fun r => r.version == v) with
  | some m => some m.position
  | none => feedSearchLoop feed v pageOffsets

/-! The binary-search variant (`chromium-config.ts` 193-270). Its offset
bisection compares version *strings* with JavaScript `<` / `>`, which is
plain lexicographic character comparison — not `compareVersions`. -/

/-- JavaScript `<` on strings: lexicographic comparison of the character
sequences (shorter prefix is smaller). -/
def lexLtChars : List Char → List Char → Bool
  | [], [] => false
  | [], _ :: _ => true
  | _ :: _, [] => false
  | c :: cs, d :: ds => if c < d then true else if d < c then false else lexLtChars cs ds

/-- JavaScript `a < b` on strings, as JavaScript evaluates it. -/
def strLt (a b : String) : Bool := lexLtChars a.data b.data

/-- Initial `offsetHigh` of the binary-search variant. -/
def offsetHighInit : Nat := 450

/-- The `while (offsetLow < offsetHigh)` bisection of the binary-search
variant, returning the final `offsetLow`. Empty page at the midpoint:
`offsetHigh = mid`; page entirely newer (`oldestVersion > version` as JS
string comparison): `offsetLow = mid + numResults`; page entirely older
(`newestVersion < version`): `offsetHigh = mid`; otherwise
`offsetLow = mid` and break. The `fuel` argument only makes the recursion
structural: each iteration strictly shrinks `hi - lo`, so the initial fuel
`offsetHighInit` (= the initial `hi - lo`) is never exhausted;
`binLoopGo_fuel_irrelevant` below proves the result is fuel-independent
once `hi - lo ≤ fuel`. -/
def binLoopGo (feed : List Release) (v : String) :
    Nat → Nat → Nat → Nat
  | 0, lo, _ => lo
  | fuel + 1, lo, hi =>
    if lo < hi then
      let mid := (lo + hi) / 2
      let data := fetchPage feed mid
      if data.isEmpty then binLoopGo feed v fuel lo mid
      else
        let newest := (data.headD dummyRelease).version
        let oldest := (data.getLastD dummyRelease).version
        if strLt newest v then binLoopGo feed v fuel lo mid
        else if strLt v oldest then binLoopGo feed v fuel (mid + numResults) hi
        else mid
    else lo

/-- The unbounded trailing scan of the binary-search variant
(`for (let offset = offsetLow; ; offset += numResults)`), iterated over an
offset list: the source loop stops only at the first empty page, and
`scanOffsets` below enumerates every offset the loop can visit before
reaching one (the empty-page exit is kept verbatim, and
`scanLoop_append_of_empty` proves appending offsets at or beyond an empty
page never changes the result). -/
def scanLoop (feed : List Release) (ex : Int → Bool) (v : String) :
    List Nat → Except ResolveError Int
  | [] => .error .versionNotFound
  | offset :: rest =>
    let data := fetchPage feed offset
    if data.isEmpty then .error .versionNotFound
    else
      match data.find? (fun r => r.version == v) with
      | some m => findNearestAvailableBuild ex m.position
      | none => scanLoop feed ex v rest

/-- Offsets `lo, lo + 50, lo + 100, …` covering every index below the
catalog length (any later offset yields an empty page). -/
def scanOffsets (len lo : Nat) : List Nat :=
  (List.range (len / numResults + 1)).map (fun i => lo + numResults * i)

/-- Binary-search `fetchChromiumBuildNumber`: bisect offsets starting from
`offsetLow = 0`, `offsetHigh = 450`, then scan linearly from the offset
the bisection settled on until a match or an empty page. -/
def fetchChromiumBuildNumberBinary (feed : List Release) (ex : Int → Bool)
    (v : String) : Except ResolveError Int :=
  scanLoop feed ex v (scanOffsets feed.length (binLoopGo feed v offsetHighInit 0 offsetHighInit))

/-! ## Platforms and architectures (`browser-base-config.ts`) -/

/-- Source `SupportedPlatform = 'windows' | 'mac' | 'linux'`. -/
inductive SupportedPlatform where
  | windows
  | mac
  | linux
deriving DecidableEq

/-- Source `SupportedArch = 'x64' | 'arm64'`. -/
inductive SupportedArch where
  | x64
  | arm64
deriving DecidableEq

/-- The platform identifier string. -/
def platKeyStr : SupportedPlatform → String
  | .windows => "windows"
  | .mac => "mac"
  | .linux => "linux"

/-- The architecture identifier string. -/
def archStr : SupportedArch → String
  | .x64 => "x64"
  | .arm64 => "arm64"

/-! ## Version cache (`browser-base-config.ts` 128-132, 593-614)

`getCachedVersion(cacheKey, fetcher)` consults `versionCache` (a map from
key to `{ version, timestamp }`); an entry younger than `CACHE_TTL` is
returned as is, otherwise the fetcher runs and, on success only, its
result is stored with the current time. The map is modelled as a function
from keys to optional entries, `Date.now()` as an explicit `now` argument,
and the fetcher by the `Except` value it would produce; the returned
`Bool` records whether the fetcher was invoked. -/

/-- A `versionCache` entry: `{ version, timestamp }`. -/
structure CacheEntry where
  version : String
  timestamp : Int
deriving DecidableEq

/-- Source `CACHE_TTL = 1000 * 60 * 60` (one hour in milliseconds). -/
def CACHE_TTL : Int := 1000 * 60 * 60

/-- The `versionCache` map. -/
abbrev Cache : Type := String → Option CacheEntry

/-- Model of `versionCache.set(key, entry)`. -/
def cacheSet (cache : Cache) (key : String) (entry : CacheEntry) : Cache :=
  fun k => if k = key then some entry else cache k

/-- Source `getCachedVersion`: result, updated cache, and whether the fetcher was
invoked. -/
def getCachedVersion (cache : Cache) (key : String) (now : Int)
    (fetcher : Except String String) :
    Except String String × Cache × Bool :=
  match cache key with
  | some cached =>
    if now - cached.timestamp < CACHE_TTL then (.ok cached.version, cache, false)
    else
      match fetcher with
      | .ok version => (.ok version, cacheSet cache key ⟨version, now⟩, true)
      | .error e => (.error e, cache, true)
  | none =>
    match fetcher with
    | .ok version => (.ok version, cacheSet cache key ⟨version, now⟩, true)
    | .error e => (.error e, cache, true)

/-! ## Arc (`arc-config.ts`) -/

/-- The body of the fetcher closure in `ArcConfig.getLatestVersion`:
platforms other than mac/windows are rejected, windows requires x64,
otherwise the literal `'latest'` is produced. -/
def arcFetcher (platform : SupportedPlatform) (arch : SupportedArch) :
    Except String String :=
  if platform ≠ .mac ∧ platform ≠ .windows then
    .error "Arc Browser is only supported on macOS and Windows."
  else if platform = .windows ∧ arch ≠ .x64 then
    .error "Arc Browser on Windows only supports x64 architecture."
  else .ok "latest"

/-- The cache key used by every `getLatestVersion` override. -/
def versionCacheKey (platform : SupportedPlatform) (arch : SupportedArch) : String :=
  platKeyStr platform ++ "-" ++ archStr arch

/-- Source `ArcConfig.getLatestVersion`: the fetcher above run through the
version cache. -/
def arcGetLatestVersion (cache : Cache) (now : Int)
    (platform : SupportedPlatform) (arch : SupportedArch) :
    Except String String × Cache × Bool :=
  getCachedVersion cache (versionCacheKey platform arch) now (arcFetcher platform arch)

/-! ## Chrome curated-table resolution (`chrome-config.ts`)

The curated table (`versions.json`) maps a version string to optional
per-platform URLs; it is modelled as an association list in object key
order. -/

/-- One value of the curated table: `{ mac?, win?, linux? }`. -/
structure ChromeUrls where
  mac : Option String := none
  win : Option String := none
  linux : Option String := none
deriving DecidableEq

/-- The curated `versions.json` table in key order. -/
abbrev ChromeVersionsData : Type := List (String × ChromeUrls)

/-- Field access `urls[platformKey]` where
`platformKey = platform === 'windows' ? 'win' : platform`. -/
def chromeUrlField (urls : ChromeUrls) : SupportedPlatform → Option String
  | .windows => urls.win
  | .mac => urls.mac
  | .linux => urls.linux

/-- JavaScript truthiness of an optional URL (`!!urls[platformKey]`):
present and nonempty. -/
def optTruthy : Option String → Bool
  | some s => !(s == "")
  | none => false

/-- Source `MIN_MAC_ARM64_VERSION`. -/
def minMacArm64Version : String := "88.0.4324.150"

/-- One step of the model of `Array.prototype.sort(compareVersions)`:
insert into an already-sorted list. -/
def orderedInsertV (a : String) : List String → List String
  | [] => [a]
  | b :: l => if compareVersions a b ≤ 0 then a :: b :: l else b :: orderedInsertV a l

/-- Model of `Array.prototype.sort(compareVersions)` as insertion sort:
the result is sorted ascending under the comparator and is a permutation
of the input, which is all the source relies on. -/
def sortVersions : List String → List String
  | [] => []
  | a :: l => orderedInsertV a (sortVersions l)

/-- Source `availableVersions` in `findClosestVersion`: table entries with a
truthy URL for the platform, additionally restricted on mac/arm64 to
versions `≥ 88.0.4324.150`, sorted ascending by `compareVersions`. -/
def chromeAvailableVersions (data : ChromeVersionsData)
    (platform : SupportedPlatform) (arch : SupportedArch) : List String :=
  sortVersions
    (((data.filter (fun e => optTruthy (chromeUrlField e.2 platform))).map Prod.fst).filter
      (fun version =>
        if platform = SupportedPlatform.mac ∧ arch = SupportedArch.arm64 then
          decide (0 ≤ compareVersions version minMacArm64Version)
        else true))

/-- Source `findClosestVersion`: fail if no version is available, otherwise the
first (smallest) available version `≥ target`, with the JavaScript
`found || last` fallback to the newest (last, greatest) available version
when the find comes back `undefined` — or `""`, which is falsy. -/
def findClosestVersion (data : ChromeVersionsData) (targetVersion : String)
    (platform : SupportedPlatform) (arch : SupportedArch) :
    Except String String :=
  let availableVersions := chromeAvailableVersions data platform arch
  if availableVersions.isEmpty then
    .error ("No available versions found for " ++ platKeyStr platform ++ "/" ++ archStr arch)
  else
    .ok (match availableVersions.find? (fun version => decide (0 ≤ compareVersions version targetVersion)) with
         | some v => if v == "" then availableVersions.getLastD "" else v
         | none => availableVersions.getLastD "")

/-- Object lookup `versions[matchedVersion]`: object lookup in the curated table. -/
def chromeLookup (data : ChromeVersionsData) (key : String) : Option ChromeUrls :=
  (data.find? (fun e => e.1 == key)).map Prod.snd

/-- The per-platform `downloadUrlResolver` of `ChromeConfig`: pick the
closest version (the windows resolver always asks for `('windows','x64')`),
then read that version's URL out of the table (`as string`: an absent
field is modelled by the empty string, a case the resolver never hits for
versions produced by `findClosestVersion`). -/
def chromeDownloadUrlResolver (data : ChromeVersionsData)
    (platform : SupportedPlatform) (arch : SupportedArch) (version : String) :
    Except String String :=
  match platform with
  | .windows =>
    (findClosestVersion data version .windows .x64).map
      (fun m => (((chromeLookup data m).map ChromeUrls.win).join).getD "")
  | .mac =>
    (findClosestVersion data version .mac arch).map
      (fun m => (((chromeLookup data m).map ChromeUrls.mac).join).getD "")
  | .linux =>
    (findClosestVersion data version .linux arch).map
      (fun m => (((chromeLookup data m).map ChromeUrls.linux).join).getD "")

/-! ## Template substitution and Brave (`browser-base-config.ts` 261-266,
`brave-config.ts`)

`replaceTemplate` substitutes `template.replace(/\{\{(\w+)\}\}/g, ...)`:
only placeholders whose body is a nonempty run of word characters
immediately enclosed by double braces are replaced; a matched name absent
from `vars` throws. The scan is modelled on the character list: at each
position try to match a placeholder, otherwise emit one character and
continue — exactly the regex engine's left-to-right, non-overlapping
scan. -/

/-- A regex word character (`\w`): ASCII letter, digit or underscore. -/
def isWordChar (c : Char) : Bool :=
  c.isAlpha || c.isDigit || c = '_'

/-- Try to match `/\{\{(\w+)\}\}/` at the head of the list; on success
return the captured name and the remainder after the match (the word run
is the greedy `\w+`, which must be nonempty and immediately followed by
the two closing braces). -/
def tryPlaceholder : List Char → Option (String × List Char)
  | c1 :: c2 :: rest =>
    if c1 = '\x7b' ∧ c2 = '\x7b' then
      let w := rest.takeWhile isWordChar
      let d := rest.dropWhile isWordChar
      if w ≠ [] ∧ d.take 2 = ['\x7d', '\x7d'] then some (String.mk w, d.drop 2)
      else none
    else none
  | _ => none

/-- The `template.replace` scan: at each position substitute a matched
placeholder (throwing when its name is missing from `vars`) or copy one
character. A successful match consumes at least the two opening braces, so
the remaining input is strictly shorter. -/
def substGo (vars : String → Option String) : List Char → Except String (List Char)
  | [] => .ok []
  | c :: cs =>
    match h : tryPlaceholder (c :: cs) with
    | some (w, rest) =>
      match vars w with
      | some v => (substGo vars rest).map (fun t => v.data ++ t)
      | none => .error ("Missing template variable: " ++ w)
    | none => (substGo vars cs).map (fun t => c :: t)
termination_by l => l.length
decreasing_by
  · rcases cs with _ | ⟨c2, r⟩
    · simp [tryPlaceholder] at h
    · simp only [tryPlaceholder] at h
      split at h
      · split at h
        · simp only [Option.some.injEq, Prod.mk.injEq] at h
          have h1 : (r.dropWhile isWordChar).length ≤ r.length :=
            (List.dropWhile_suffix _).length_le
          have h2 : rest = (r.dropWhile isWordChar).drop 2 := h.2.symm
          subst h2
          simp only [List.length_drop, List.length_cons]
          omega
        · simp at h
      · simp at h
  · simp

/-- Source `replaceTemplate(template, vars)`. -/
def replaceTemplate (template : String) (vars : String → Option String) :
    Except String String :=
  (substGo vars template.data).map String.mk

/-- Brave's `downloadUrlTemplate` per platform (`brave-config.ts`). -/
def braveDownloadUrlTemplate : SupportedPlatform → String
  | .windows =>
    "https://github.com/brave/brave-browser/releases/download/v\x7b\x7bversion\x7d\x7d/BraveBrowserSetup\x7b\x7barch === \"arm64\" ? \"ARM64\" : \"\"\x7d\x7d.exe"
  | .mac =>
    "https://github.com/brave/brave-browser/releases/download/v\x7b\x7bversion\x7d\x7d/Brave-Browser-\x7b\x7barch\x7d\x7d.dmg"
  | .linux =>
    "https://github.com/brave/brave-browser/releases/download/v\x7b\x7bversion\x7d\x7d/brave-browser_\x7b\x7bversion\x7d\x7d_\x7b\x7barch === \"x64\" ? \"amd64\" : \"arm64\"\x7d\x7d.deb"

/-- The variable map `getDownloadUrl` passes to `replaceTemplate`:
`{ version, arch }`. -/
def downloadVars (version : String) (arch : SupportedArch) :
    String → Option String :=
  fun k => if k = "version" then some version
           else if k = "arch" then some (archStr arch) else none

/-- Source `getDownloadUrl` for Brave: no `downloadUrlResolver` is configured
(every Brave platform supports x64 and arm64, so validation passes), so
the platform's template is substituted with `{ version, arch }`. -/
def braveGetDownloadUrl (platform : SupportedPlatform) (version : String)
    (arch : SupportedArch) : Except String String :=
  replaceTemplate (braveDownloadUrlTemplate platform) (downloadVars version arch)

/-- The architecture `ChromeConfig`'s resolver actually hands to
`findClosestVersion`: the windows resolver always passes `'x64'`
(its `downloadUrlResolver` ignores the requested architecture), the mac
and linux resolvers pass the requested one. -/
def chromeEffArch (platform : SupportedPlatform) (arch : SupportedArch) : SupportedArch :=
  if platform = .windows then .x64 else arch

/-! ## Concrete fixtures used by the claim theorems and witnesses -/

/-- A well-formed 60-release feed, newest first: ten `121.x` releases,
`120.0` at index 10 (inside page 0) with branch position 1000, forty-five
`119.x` releases, then four `99.x` releases at indices 56-59. On this
feed the two lookup variants disagree about `"120.0"`: the bisection
compares `"99.x" > "120.0"` as JavaScript strings (lexicographically
`'9' > '1'`), walks past the start of the catalog and settles on offset
106, where the trailing scan immediately sees an empty page. -/
def c1Feed : List Release :=
  ((List.range 10).map (fun i => ⟨"121." ++ toString (9 - i), (1109 : Int) - i⟩))
    ++ [⟨"120.0", 1000⟩]
    ++ ((List.range 45).map (fun i => ⟨"119." ++ toString (44 - i), (944 : Int) - i⟩))
    ++ ((List.range 4).map (fun i => ⟨"99." ++ toString (3 - i), (503 : Int) - i⟩))

/-- The feed stub of claim C2: page 0 maps `"120.0.6099.109"` to branch
position 1000000. -/
def c2Feed : List Release := [⟨"120.0.6099.109", 1000000⟩]

/-- The artifact-existence stub of claim C2: true only at 1000002. -/
def c2Exists : Int → Bool := fun b => b == 1000002

/-- A feed with a single match used by the C4 witness. -/
def c4Feed : List Release := [⟨"1.0", 7⟩]

/-- A cache holding an entry written at time 0 for key `"mac-x64"`. -/
def c6Cache : Cache :=
  fun k => if k = "mac-x64" then some ⟨"1.0.0", 0⟩ else none

/-- A cache holding an entry written at time 0 for key `"linux-x64"`. -/
def c7Cache : Cache :=
  fun k => if k = "linux-x64" then some ⟨"1.0.0", 0⟩ else none

/-- A two-entry curated Chrome table used by the C8 witness. -/
def c8Table : ChromeVersionsData :=
  [("2.0", { mac := some "mac-2.0.dmg", win := some "win-2.0.exe" }),
   ("1.0", { win := some "win-1.0.exe", linux := some "linux-1.0.deb" })]

end BrowserManager

namespace BrowserManager

/-! # Theorems

First the comparator lemma suite: `compareVersions` is (up to sign) a
lexicographic comparison of zero-padded integer sequences, hence
reflexive-zero, sign-antisymmetric and sign-transitive. -/

theorem cmpSegs_nil_left (b : List Int) : cmpSegs [] b = cmpZeros b := rfl

theorem cmpSegs_cons_nil (x : Int) (xs : List Int) :
    cmpSegs (x :: xs) [] = if x = 0 then cmpSegs xs [] else x := by
  by_cases h : x = 0 <;> simp [cmpSegs, h]

theorem cmpSegs_cons_cons (x y : Int) (xs ys : List Int) :
    cmpSegs (x :: xs) (y :: ys) = if x = y then cmpSegs xs ys else x - y := by
  by_cases h : x = y <;> simp [cmpSegs, h]

theorem cmpZeros_cons (y : Int) (ys : List Int) :
    cmpZeros (y :: ys) = if y = 0 then cmpZeros ys else -y := by
  by_cases h : y = 0
  · simp [cmpZeros, h]
  · have h0 : (0 : Int) ≠ y := fun hc => h hc.symm
    simp [cmpZeros, h, h0]

theorem cmpZeros_replicate (k : Nat) : cmpZeros (List.replicate k 0) = 0 := by
  induction k with
  | zero => rfl
  | succ n ih => simpa [List.replicate_succ, cmpZeros_cons] using ih

theorem cmpSegs_nil_right (b : List Int) : cmpSegs b [] = -cmpZeros b := by
  induction b with
  | nil => rfl
  | cons y ys ih =>
    rw [cmpSegs_cons_nil, cmpZeros_cons]
    by_cases hy : y = 0 <;> simp [hy, ih]

theorem cmpSegs_antisymm (a : List Int) : ∀ b, cmpSegs a b = -cmpSegs b a := by
  induction a with
  | nil =>
    intro b
    rw [cmpSegs_nil_right, cmpSegs_nil_left]
    omega
  | cons x xs ih =>
    intro b
    cases b with
    | nil =>
      simp [cmpSegs_nil_right, cmpSegs_nil_left]
    | cons y ys =>
      rw [cmpSegs_cons_cons, cmpSegs_cons_cons]
      by_cases hxy : x = y
      · simpa [hxy] using ih ys
      · have hyx : ¬ y = x := fun hc => hxy hc.symm
        rw [if_neg hxy, if_neg hyx]
        omega

theorem cmpSegs_replicate_left (k : Nat) :
    ∀ b, cmpSegs (List.replicate k 0) b = cmpZeros b := by
  induction k with
  | zero => intro b; rfl
  | succ n ih =>
    intro b
    cases b with
    | nil =>
      rw [List.replicate_succ, cmpSegs_cons_nil]
      simp [cmpSegs_nil_right, cmpZeros_replicate, cmpZeros]
    | cons y ys =>
      rw [List.replicate_succ, cmpSegs_cons_cons, cmpZeros_cons]
      by_cases hy : y = 0
      · simp [hy, ih ys]
      · have h0y : ¬ (0 : Int) = y := fun hc => hy hc.symm
        rw [if_neg h0y, if_neg hy]
        omega

theorem cmpSegs_pad_right (a : List Int) :
    ∀ (b : List Int) (k : Nat),
      cmpSegs (a ++ List.replicate k 0) b = cmpSegs a b := by
  induction a with
  | nil =>
    intro b k
    simpa using cmpSegs_replicate_left k b
  | cons x xs ih =>
    intro b k
    cases b with
    | nil =>
      rw [List.cons_append, cmpSegs_cons_nil, cmpSegs_cons_nil]
      by_cases hx : x = 0 <;> simp [hx, ih [] k]
    | cons y ys =>
      rw [List.cons_append, cmpSegs_cons_cons, cmpSegs_cons_cons]
      by_cases hxy : x = y <;> simp [hxy, ih ys k]

theorem cmpSegs_pad_left (a b : List Int) (k : Nat) :
    cmpSegs a (b ++ List.replicate k 0) = cmpSegs a b := by
  rw [cmpSegs_antisymm, cmpSegs_pad_right, ← cmpSegs_antisymm]

theorem cmpSegs_padTo (a b : List Int) (n : Nat) :
    cmpSegs (padTo a n) (padTo b n) = cmpSegs a b := by
  unfold padTo
  rw [cmpSegs_pad_right, cmpSegs_pad_left]

theorem cmpSegs_refl (a : List Int) : cmpSegs a a = 0 := by
  induction a with
  | nil => rfl
  | cons x xs ih => simpa [cmpSegs_cons_cons] using ih

theorem padTo_length {l : List Int} {n : Nat} (h : l.length ≤ n) :
    (padTo l n).length = n := by
  simp only [padTo, List.length_append, List.length_replicate]
  omega

/-- On equal-length lists the sign of the comparison loop is exactly the
lexicographic ordering. -/
theorem cmpSegs_lexOrdering (a : List Int) :
    ∀ b, a.length = b.length →
      (cmpSegs a b = 0 ↔ lexOrdering a b = .eq) ∧
      (cmpSegs a b < 0 ↔ lexOrdering a b = .lt) ∧
      (0 < cmpSegs a b ↔ lexOrdering a b = .gt) := by
  induction a with
  | nil =>
    intro b hb
    have hb0 : b = [] := List.eq_nil_of_length_eq_zero hb.symm
    subst hb0
    simp [cmpSegs_nil_left, cmpZeros, lexOrdering]
  | cons x xs ih =>
    intro b hb
    cases b with
    | nil => simp at hb
    | cons y ys =>
      simp only [List.length_cons, Nat.succ.injEq] at hb
      rw [cmpSegs_cons_cons]
      by_cases hxy : x = y
      · subst hxy
        have hnlt : ¬ x < x := lt_irrefl x
        simp only [lexOrdering, if_neg hnlt, if_pos rfl]
        exact ih ys hb
      · rcases lt_or_gt_of_ne hxy with hlt | hgt
        · simp only [if_neg hxy, lexOrdering, if_pos hlt]
          refine ⟨?_, ?_, ?_⟩ <;> simp <;> omega
        · have hnlt : ¬ x < y := by omega
          simp only [if_neg hxy, lexOrdering, if_neg hnlt, if_pos hgt]
          refine ⟨?_, ?_, ?_⟩ <;> simp <;> omega

theorem cmpSegs_le_trans_eqlen (a : List Int) :
    ∀ b c, a.length = b.length → b.length = c.length →
      cmpSegs a b ≤ 0 → cmpSegs b c ≤ 0 → cmpSegs a c ≤ 0 := by
  induction a with
  | nil =>
    intro b c hab hbc _ _
    have hb : b = [] := List.eq_nil_of_length_eq_zero hab.symm
    subst hb
    have hc : c = [] := List.eq_nil_of_length_eq_zero hbc.symm
    subst hc
    simp [cmpSegs_nil_left, cmpZeros]
  | cons x xs ih =>
    intro b c hab hbc h1 h2
    cases b with
    | nil => simp at hab
    | cons y ys =>
      cases c with
      | nil => simp at hbc
      | cons z zs =>
        simp only [List.length_cons, Nat.succ.injEq] at hab hbc
        rw [cmpSegs_cons_cons] at h1 h2 ⊢
        by_cases hxy : x = y <;> by_cases hyz : y = z <;>
          by_cases hxz : x = z <;>
          simp only [if_pos, if_neg, hxy, hyz, hxz, if_true, if_false] at h1 h2 ⊢ <;>
          first
            | (exact ih ys zs hab hbc h1 h2)
            | omega

theorem cmpSegs_pos_trans_eqlen (a : List Int) :
    ∀ b c, a.length = b.length → b.length = c.length →
      0 < cmpSegs a b → 0 < cmpSegs b c → 0 < cmpSegs a c := by
  induction a with
  | nil =>
    intro b c hab _ h1 _
    have hb : b = [] := List.eq_nil_of_length_eq_zero hab.symm
    subst hb
    simp [cmpSegs_nil_left, cmpZeros] at h1
  | cons x xs ih =>
    intro b c hab hbc h1 h2
    cases b with
    | nil => simp at hab
    | cons y ys =>
      cases c with
      | nil => simp at hbc
      | cons z zs =>
        simp only [List.length_cons, Nat.succ.injEq] at hab hbc
        rw [cmpSegs_cons_cons] at h1 h2 ⊢
        by_cases hxy : x = y <;> by_cases hyz : y = z <;>
          by_cases hxz : x = z <;>
          simp only [if_pos, if_neg, hxy, hyz, hxz, if_true, if_false] at h1 h2 ⊢ <;>
          first
            | (exact ih ys zs hab hbc h1 h2)
            | omega

theorem cmpSegs_eq_trans_eqlen (a : List Int) :
    ∀ b c, a.length = b.length → b.length = c.length →
      cmpSegs a b = 0 → cmpSegs b c = 0 → cmpSegs a c = 0 := by
  induction a with
  | nil =>
    intro b c hab hbc _ _
    have hb : b = [] := List.eq_nil_of_length_eq_zero hab.symm
    subst hb
    have hc : c = [] := List.eq_nil_of_length_eq_zero hbc.symm
    subst hc
    rfl
  | cons x xs ih =>
    intro b c hab hbc h1 h2
    cases b with
    | nil => simp at hab
    | cons y ys =>
      cases c with
      | nil => simp at hbc
      | cons z zs =>
        simp only [List.length_cons, Nat.succ.injEq] at hab hbc
        rw [cmpSegs_cons_cons] at h1 h2 ⊢
        by_cases hxy : x = y <;> by_cases hyz : y = z <;>
          by_cases hxz : x = z <;>
          simp only [if_pos, if_neg, hxy, hyz, hxz, if_true, if_false] at h1 h2 ⊢ <;>
          first
            | (exact ih ys zs hab hbc h1 h2)
            | omega

theorem cmpSegs_le_trans {a b c : List Int}
    (h1 : cmpSegs a b ≤ 0) (h2 : cmpSegs b c ≤ 0) : cmpSegs a c ≤ 0 := by
  have ha : a.length ≤ max a.length (max b.length c.length) := le_max_left _ _
  have hb : b.length ≤ max a.length (max b.length c.length) :=
    le_trans (le_max_left _ _) (le_max_right _ _)
  have hc : c.length ≤ max a.length (max b.length c.length) :=
    le_trans (le_max_right _ _) (le_max_right _ _)
  rw [← cmpSegs_padTo a b (max a.length (max b.length c.length))] at h1
  rw [← cmpSegs_padTo b c (max a.length (max b.length c.length))] at h2
  rw [← cmpSegs_padTo a c (max a.length (max b.length c.length))]
  exact cmpSegs_le_trans_eqlen _ _ _
    (by rw [padTo_length ha, padTo_length hb])
    (by rw [padTo_length hb, padTo_length hc]) h1 h2

theorem cmpSegs_pos_trans {a b c : List Int}
    (h1 : 0 < cmpSegs a b) (h2 : 0 < cmpSegs b c) : 0 < cmpSegs a c := by
  have ha : a.length ≤ max a.length (max b.length c.length) := le_max_left _ _
  have hb : b.length ≤ max a.length (max b.length c.length) :=
    le_trans (le_max_left _ _) (le_max_right _ _)
  have hc : c.length ≤ max a.length (max b.length c.length) :=
    le_trans (le_max_right _ _) (le_max_right _ _)
  rw [← cmpSegs_padTo a b (max a.length (max b.length c.length))] at h1
  rw [← cmpSegs_padTo b c (max a.length (max b.length c.length))] at h2
  rw [← cmpSegs_padTo a c (max a.length (max b.length c.length))]
  exact cmpSegs_pos_trans_eqlen _ _ _
    (by rw [padTo_length ha, padTo_length hb])
    (by rw [padTo_length hb, padTo_length hc]) h1 h2

theorem cmpSegs_eq_trans {a b c : List Int}
    (h1 : cmpSegs a b = 0) (h2 : cmpSegs b c = 0) : cmpSegs a c = 0 := by
  have ha : a.length ≤ max a.length (max b.length c.length) := le_max_left _ _
  have hb : b.length ≤ max a.length (max b.length c.length) :=
    le_trans (le_max_left _ _) (le_max_right _ _)
  have hc : c.length ≤ max a.length (max b.length c.length) :=
    le_trans (le_max_right _ _) (le_max_right _ _)
  rw [← cmpSegs_padTo a b (max a.length (max b.length c.length))] at h1
  rw [← cmpSegs_padTo b c (max a.length (max b.length c.length))] at h2
  rw [← cmpSegs_padTo a c (max a.length (max b.length c.length))]
  exact cmpSegs_eq_trans_eqlen _ _ _
    (by rw [padTo_length ha, padTo_length hb])
    (by rw [padTo_length hb, padTo_length hc]) h1 h2

theorem compareVersions_refl (a : String) : compareVersions a a = 0 :=
  cmpSegs_refl _

theorem compareVersions_antisymm (a b : String) :
    compareVersions a b = -compareVersions b a :=
  cmpSegs_antisymm _ _

theorem compareVersions_le_trans {a b c : String}
    (h1 : compareVersions a b ≤ 0) (h2 : compareVersions b c ≤ 0) :
    compareVersions a c ≤ 0 :=
  cmpSegs_le_trans h1 h2

theorem compareVersions_total (a b : String) :
    compareVersions a b ≤ 0 ∨ compareVersions b a ≤ 0 := by
  rw [compareVersions_antisymm a b]
  omega

/-- C5. `compareVersions(a, b)` agrees in sign with the spec's
lexicographic comparison of the zero-padded integer-sequence denotations;
consequently `compare(V, V) = 0` for every version string `V` (including
across trailing-zero padding, e.g. `compare("1.2", "1.2.0.0") = 0`),
`compare("1.10.0", "1.9.0") > 0`, and the comparison is antisymmetric and
transitive. -/
theorem c5_compare_versions_spec (a b c : String) :
    (compareVersions a b = 0 ↔ specCompareVersions a b = .eq) ∧
    (compareVersions a b < 0 ↔ specCompareVersions a b = .lt) ∧
    (0 < compareVersions a b ↔ specCompareVersions a b = .gt) ∧
    compareVersions a a = 0 ∧
    compareVersions "1.2" "1.2.0.0" = 0 ∧
    0 < compareVersions "1.10.0" "1.9.0" ∧
    compareVersions a b = -compareVersions b a ∧
    (0 < compareVersions a b → 0 < compareVersions b c → 0 < compareVersions a c) ∧
    (compareVersions a b = 0 → compareVersions b c = 0 → compareVersions a c = 0) := by
  have hcorr :=
    cmpSegs_lexOrdering
      (padTo ((splitDots a).map parseSegment)
        (max ((splitDots a).map parseSegment).length ((splitDots b).map parseSegment).length))
      (padTo ((splitDots b).map parseSegment)
        (max ((splitDots a).map parseSegment).length ((splitDots b).map parseSegment).length))
      (by rw [padTo_length (le_max_left _ _), padTo_length (le_max_right _ _)])
  rw [cmpSegs_padTo] at hcorr
  refine ⟨hcorr.1, hcorr.2.1, hcorr.2.2, compareVersions_refl a, by decide, by decide,
    compareVersions_antisymm a b, fun h1 h2 => cmpSegs_pos_trans h1 h2,
    fun h1 h2 => cmpSegs_eq_trans h1 h2⟩

/-- Witness for C5 at concrete inputs: transitivity applied at
`"3.0.1", "2.0", "1.5"`. -/
theorem c5_compare_versions_spec_witness :
    0 < compareVersions "3.0.1" "2.0" ∧ 0 < compareVersions "2.0" "1.5" ∧
    0 < compareVersions "3.0.1" "1.5" :=
  ⟨by decide, by decide,
    (c5_compare_versions_spec "3.0.1" "2.0" "1.5").2.2.2.2.2.2.2.1
      (by decide) (by decide)⟩

/-! ## Probe sweep (C2, C4) -/

/-- The probe loop tests the candidates in exactly the flattened order
`b+i, b-i` for the remaining attempt indices and returns the first for
which the existence oracle is true. -/
theorem probeGo_spec (ex : Int → Bool) (b : Int) :
    ∀ l : List Nat,
      probeGo ex b l =
        match (l.flatMap (fun i => [b + i, b - i])).find? ex with
        | some x => .ok x
        | none => .error .noArtifactNearPosition := by
  intro l
  induction l with
  | nil => rfl
  | cons i rest ih =>
    by_cases h1 : ex (b + i) <;> by_cases h2 : ex (b - i) <;>
      simp [probeGo, List.find?_cons, h1, h2, ih]

/-- C2. The probe sweep of `findNearestAvailableBuild` tests the candidate
positions in the order `b+0, b-0, b+1, b-1, …, b+4, b-4` (one existence
check per candidate) and returns the first existing one; in particular,
with a feed whose page 0 maps `"120.0.6099.109"` to build position
1000000 and an oracle true only at 1000002, the lookup returns 1000002. -/
theorem c2_probe_order_and_locate :
    (∀ (ex : Int → Bool) (b : Int),
      findNearestAvailableBuild ex b =
        match (probeSequence b).find? ex with
        | some x => .ok x
        | none => .error .noArtifactNearPosition) ∧
    fetchChromiumBuildNumber c2Feed c2Exists "120.0.6099.109" = .ok 1000002 :=
  ⟨fun ex b => probeGo_spec ex b (List.range maxAttempts), rfl⟩

/-- If the oracle is false at every probed position, the probe fails with
the no-artifact error. -/
theorem probe_all_false {ex : Int → Bool} {b : Int}
    (hex : ∀ i : Nat, i < maxAttempts → ex (b + i) = false ∧ ex (b - i) = false) :
    findNearestAvailableBuild ex b = .error .noArtifactNearPosition := by
  rw [findNearestAvailableBuild, probeGo_spec]
  have hnone : (probeSequence b).find? ex = none := by
    rw [List.find?_eq_none]
    intro x hx
    simp only [probeSequence, List.mem_flatMap, List.mem_range] at hx
    obtain ⟨i, hi, hmem⟩ := hx
    simp only [List.mem_cons, List.mem_singleton] at hmem
    rcases hmem with h | h | h
    · subst h; simp [(hex i hi).1]
    · subst h; simp [(hex i hi).2]
    · cases h
  rw [show (List.range maxAttempts).flatMap (fun i => [b + i, b - i]) = probeSequence b from rfl]
  rw [hnone]

/-! ## Linear lookup decomposition (C3, C4) -/

/-- The paginated loop factors through its feed-search phase: it succeeds
exactly when the search finds a match, in which case the result is the
probe run at the matched branch position. -/
theorem linearLoop_eq_feedSearchLoop (feed : List Release) (ex : Int → Bool)
    (v : String) : ∀ offs : List Nat,
    linearLoop feed ex v offs =
      match feedSearchLoop feed v offs with
      | some p => findNearestAvailableBuild ex p
      | none => .error .versionNotFound := by
  intro offs
  induction offs with
  | nil => rfl
  | cons o rest ih =>
    simp only [linearLoop, feedSearchLoop]
    by_cases he : (fetchPage feed o).isEmpty
    · simp [he]
    · simp only [he, Bool.false_eq_true, if_false]
      rcases hf : (fetchPage feed o).find? (fun r => r.version == v) with _ | m
      · rw [hf]
        by_cases hc :
            compareVersions ((fetchPage feed o).getLast?.getD dummyRelease).version v < 0
        · simp [hc]
        · simp [hc, ih]
      · rw [hf]

/-- The linear-variant lookup factors through `feedSearchResult`. -/
theorem fetchChromiumBuildNumber_decompose (feed : List Release)
    (ex : Int → Bool) (v : String) :
    fetchChromiumBuildNumber feed ex v =
      match feedSearchResult feed v with
      | some p => findNearestAvailableBuild ex p
      | none => .error .versionNotFound := by
  simp only [fetchChromiumBuildNumber, feedSearchResult]
  rcases hf : (fetchPage feed 0).find? (fun r => r.version == v) with _ | m
  · rw [hf]
    exact linearLoop_eq_feedSearchLoop feed ex v pageOffsets
  · rw [hf]

/-- Membership in a page within the offset bound gives membership in the
bounded prefix of the catalog. -/
theorem mem_fetchPage_take {feed : List Release} {off n : Nat} {r : Release}
    (hr : r ∈ fetchPage feed off) (hn : off + numResults ≤ n) :
    r ∈ feed.take n := by
  have h1 : fetchPage feed off = (feed.take (off + numResults)).drop off := by
    simp only [fetchPage]
    rw [List.drop_take]
    congr 1
    omega
  rw [h1] at hr
  have h2 : r ∈ feed.take (off + numResults) := List.drop_subset _ _ hr
  have h3 : feed.take (off + numResults) = (feed.take n).take (off + numResults) := by
    rw [List.take_take]
    congr 1
    omega
  rw [h3] at h2
  exact List.take_subset _ _ h2

/-- If no visited page contains a match, the feed-search loop fails. -/
theorem feedSearchLoop_none {feed : List Release} {v : String}
    {offs : List Nat}
    (h : ∀ o ∈ offs, ∀ r ∈ fetchPage feed o, r.version ≠ v) :
    feedSearchLoop feed v offs = none := by
  induction offs with
  | nil => rfl
  | cons o rest ih =>
    simp only [feedSearchLoop]
    have hfind : (fetchPage feed o).find? (fun r => r.version == v) = none := by
      rw [List.find?_eq_none]
      intro r hr
      simpa using h o (List.mem_cons_self o rest) r hr
    rw [hfind]
    by_cases he : (fetchPage feed o).isEmpty
    · simp [he]
    · simp only [he, Bool.false_eq_true, if_false]
      by_cases hc :
          compareVersions ((fetchPage feed o).getLastD dummyRelease).version v < 0
      · rw [if_pos hc]
      · rw [if_neg hc]
        exact ih (fun o' ho' => h o' (List.mem_cons_of_mem o ho'))

/-- Overshoot stops the feed-search loop without success: if the offsets
list splits as `pre ++ off :: post`, no page at `pre` or at `off` contains
a match, the page at `off` is nonempty and its oldest release compares
strictly older than the target, then the loop fails no matter what `post`
holds. -/
theorem feedSearchLoop_overshoot (feed : List Release) (v : String) :
    ∀ (pre : List Nat) (off : Nat) (post : List Nat),
      (∀ o ∈ pre, ∀ r ∈ fetchPage feed o, r.version ≠ v) →
      (∀ r ∈ fetchPage feed off, r.version ≠ v) →
      compareVersions ((fetchPage feed off).getLastD dummyRelease).version v < 0 →
      feedSearchLoop feed v (pre ++ off :: post) = none := by
  intro pre
  induction pre with
  | nil =>
    intro off post _ hoff hc
    simp only [List.nil_append, feedSearchLoop]
    have hfind : (fetchPage feed off).find? (fun r => r.version == v) = none := by
      rw [List.find?_eq_none]
      intro r hr
      simpa using hoff r hr
    rw [hfind]
    by_cases he : (fetchPage feed off).isEmpty
    · simp [he]
    · simp only [he, Bool.false_eq_true, if_false]
      rw [if_pos hc]
  | cons o pre' ih =>
    intro off post hpre hoff hc
    simp only [List.cons_append, feedSearchLoop]
    have hfind : (fetchPage feed o).find? (fun r => r.version == v) = none := by
      rw [List.find?_eq_none]
      intro r hr
      simpa using hpre o (List.mem_cons_self o pre') r hr
    rw [hfind]
    by_cases he : (fetchPage feed o).isEmpty
    · simp [he]
    · simp only [he, Bool.false_eq_true, if_false]
      by_cases hco :
          compareVersions ((fetchPage feed o).getLastD dummyRelease).version v < 0
      · rw [if_pos hco]
      · rw [if_neg hco]
        exact ih off post (fun o' ho' => hpre o' (List.mem_cons_of_mem o ho')) hoff hc

/-- C3. The linear lookup fails with the version-not-found error when no
page within the offset bound contains an exact match, and likewise when
some visited page (none of whose releases match, nor any earlier page's)
has its oldest release strictly older than the target — the overshoot
exit. -/
theorem c3_version_not_found (feed : List Release) (ex : Int → Bool) (v : String)
    (h : (∀ r ∈ feed.take maxOffset, r.version ≠ v) ∨
         (∃ k : Nat, numResults * k < maxOffset ∧
            (∀ j ≤ k, ∀ r ∈ fetchPage feed (numResults * j), r.version ≠ v) ∧
            compareVersions
              ((fetchPage feed (numResults * k)).getLastD dummyRelease).version v < 0)) :
    fetchChromiumBuildNumber feed ex v = .error .versionNotFound := by
  rw [fetchChromiumBuildNumber_decompose]
  have hres : feedSearchResult feed v = none := by
    rcases h with hall | ⟨k, hk, hpages, hc⟩
    · have hpage : ∀ o ∈ pageOffsets, ∀ r ∈ fetchPage feed o, r.version ≠ v := by
        intro o ho r hr
        simp only [pageOffsets, List.mem_map, List.mem_range] at ho
        obtain ⟨j, hj, rfl⟩ := ho
        refine hall r (mem_fetchPage_take hr ?_)
        have : j + 1 ≤ maxOffset / numResults := hj
        calc numResults * j + numResults = numResults * (j + 1) := by ring
        _ ≤ numResults * (maxOffset / numResults) := by
              exact Nat.mul_le_mul_left _ this
        _ ≤ maxOffset := Nat.mul_div_le _ _
      have hrecent : ∀ r ∈ fetchPage feed 0, r.version ≠ v := by
        intro r hr
        exact hall r (mem_fetchPage_take hr (by norm_num [numResults, maxOffset]))
      simp only [feedSearchResult]
      have hfind : (fetchPage feed 0).find? (fun r => r.version == v) = none := by
        rw [List.find?_eq_none]
        intro r hr
        simpa using hrecent r hr
      rw [hfind]
      exact feedSearchLoop_none hpage
    · have hk20 : k < maxOffset / numResults := by
        have : numResults * k < numResults * (maxOffset / numResults) := by
          norm_num [numResults, maxOffset] at hk ⊢
          omega
        exact Nat.lt_of_mul_lt_mul_left this
      have hsplit : pageOffsets =
          ((List.range k).map (fun j => numResults * j)) ++
            (numResults * k) :: (pageOffsets.drop (k + 1)) := by
        have hlen : k < pageOffsets.length := by
          simpa [pageOffsets] using hk20
        have h1 : pageOffsets.take k = (List.range k).map (fun j => numResults * j) := by
          simp only [pageOffsets, ← List.map_take, List.take_range]
          rw [min_eq_left (le_of_lt hk20)]
        have h2 : pageOffsets.drop k = (numResults * k) :: pageOffsets.drop (k + 1) := by
          rw [List.drop_eq_getElem_cons hlen]
          congr 1
          simp [pageOffsets]
        rw [← h1, ← h2]
        exact (List.take_append_drop k pageOffsets).symm
      simp only [feedSearchResult]
      have hfind : (fetchPage feed 0).find? (fun r => r.version == v) = none := by
        rw [List.find?_eq_none]
        intro r hr
        have h0 : ∀ r ∈ fetchPage feed (numResults * 0), r.version ≠ v :=
          hpages 0 (Nat.zero_le k)
        simpa using h0 r (by simpa using hr)
      rw [hfind, hsplit]
      refine feedSearchLoop_overshoot feed v _ _ _ ?_ (hpages k le_rfl) hc
      intro o ho r hr
      simp only [List.mem_map, List.mem_range] at ho
      obtain ⟨j, hj, rfl⟩ := ho
      exact hpages j (Nat.le_of_lt hj) r hr
  rw [hres]

/-- Witness for C3: the empty feed contains no match, and the lookup
fails with the version-not-found error. -/
theorem c3_version_not_found_witness :
    (∀ r ∈ ([] : List Release).take maxOffset, r.version ≠ "1.0") ∧
    fetchChromiumBuildNumber [] (fun _ => false) "1.0" = .error .versionNotFound :=
  ⟨by simp, c3_version_not_found [] (fun _ => false) "1.0" (Or.inl (by simp))⟩

/-- C4. If the feed search finds an exact match at branch position `p`
but the artifact existence check is false at every probed position
`p + i` and `p - i` for `i < maxAttempts`, the lookup fails with the
no-artifact-near-position error. -/
theorem c4_no_artifact_near_position (feed : List Release) (ex : Int → Bool)
    (v : String) (p : Int)
    (hmatch : feedSearchResult feed v = some p)
    (hex : ∀ i : Nat, i < maxAttempts → ex (p + i) = false ∧ ex (p - i) = false) :
    fetchChromiumBuildNumber feed ex v = .error .noArtifactNearPosition := by
  rw [fetchChromiumBuildNumber_decompose, hmatch]
  exact probe_all_false hex

/-- Witness for C4: a one-release feed whose match sits at position 7, an
all-false oracle. -/
theorem c4_no_artifact_near_position_witness :
    feedSearchResult c4Feed "1.0" = some 7 ∧
    fetchChromiumBuildNumber c4Feed (fun _ => false) "1.0" =
      .error .noArtifactNearPosition :=
  ⟨rfl, c4_no_artifact_near_position c4Feed (fun _ => false) "1.0" 7 rfl
    (fun i _ => ⟨rfl, rfl⟩)⟩

/-! ## The two lookup variants (C1)

Two embedding artifacts are discharged first: the bisection's structural
fuel is irrelevant once it is at least `hi - lo` (the initial call uses
fuel 450 = the initial `hi - lo`, and every iteration strictly shrinks
`hi - lo`), and extending the trailing scan's offset list past an
empty-page offset never changes its result (the source loop stops at the
first empty page). -/

theorem binLoopGo_fuel_irrelevant (feed : List Release) (v : String) :
    ∀ (f1 f2 lo hi : Nat), hi - lo ≤ f1 → hi - lo ≤ f2 →
      binLoopGo feed v f1 lo hi = binLoopGo feed v f2 lo hi := by
  intro f1
  induction f1 with
  | zero =>
    intro f2 lo hi h1 _
    have hlh : ¬ lo < hi := by omega
    cases f2 with
    | zero => rfl
    | succ n => simp [binLoopGo, hlh]
  | succ n ih =>
    intro f2 lo hi h1 h2
    cases f2 with
    | zero =>
      have hlh : ¬ lo < hi := by omega
      simp [binLoopGo, hlh]
    | succ m =>
      by_cases hlh : lo < hi
      · have hmidlo : lo ≤ (lo + hi) / 2 := by omega
        have hmidhi : (lo + hi) / 2 < hi := by omega
        have hnr : 0 < numResults := by norm_num [numResults]
        simp only [binLoopGo, if_pos hlh]
        by_cases he : (fetchPage feed ((lo + hi) / 2)).isEmpty
        · simp only [he, if_pos]
          exact ih m lo ((lo + hi) / 2) (by omega) (by omega)
        · simp only [he, Bool.false_eq_true, if_false]
          by_cases hn :
              strLt ((fetchPage feed ((lo + hi) / 2)).headD dummyRelease).version v
          · simp only [hn, if_pos]
            exact ih m lo ((lo + hi) / 2) (by omega) (by omega)
          · simp only [hn, Bool.false_eq_true, if_false]
            by_cases ho :
                strLt v ((fetchPage feed ((lo + hi) / 2)).getLastD dummyRelease).version
            · simp only [ho, if_pos]
              exact ih m ((lo + hi) / 2 + numResults) hi (by omega) (by omega)
            · simp only [ho, Bool.false_eq_true, if_false]
      · simp [binLoopGo, hlh]

theorem scanLoop_append_of_empty (feed : List Release) (ex : Int → Bool)
    (v : String) {o : Nat} (ho : fetchPage feed o = []) :
    ∀ offs : List Nat, scanLoop feed ex v (offs ++ [o]) = scanLoop feed ex v offs := by
  intro offs
  induction offs with
  | nil =>
    simp only [List.nil_append, scanLoop, ho]
    rfl
  | cons o' rest ih =>
    simp only [List.cons_append, scanLoop]
    by_cases he : (fetchPage feed o').isEmpty
    · simp [he]
    · simp only [he, Bool.false_eq_true, if_false]
      rcases hf : (fetchPage feed o').find? (fun r => r.version == v) with _ | m
      · rw [hf]
        show scanLoop feed ex v (rest ++ [o]) = scanLoop feed ex v rest
        exact ih
      · rw [hf]

/-- C1 (code bug). On the well-formed feed `c1Feed`, whose page 0 contains
the requested version `"120.0"` at branch position 1000, the linear
page-scan variant resolves the build (position 1000, with an
always-existing artifact oracle), while the binary-search variant throws
version-not-found: its bisection compares the version strings `"99.x"`
and `"120.0"` with JavaScript `<`/`>` — lexicographically, so
`"99.x" > "120.0"` — walks past the whole catalog and hands the trailing
scan the out-of-range offset 106. The two variants therefore disagree on
a feed where the version appears well inside the bounded offset range. -/
theorem c1_binary_variant_diverges :
    (fetchPage c1Feed 0).find? (fun r => r.version == "120.0") =
      some ⟨"120.0", 1000⟩ ∧
    fetchChromiumBuildNumber c1Feed (fun _ => true) "120.0" = .ok 1000 ∧
    fetchChromiumBuildNumberBinary c1Feed (fun _ => true) "120.0" =
      .error .versionNotFound :=
  ⟨rfl, rfl, rfl⟩

/-! ## Version cache (C6, C7) -/

/-- A fresh cache entry is served without invoking the fetcher. -/
theorem getCachedVersion_hit {cache : Cache} {key : String} {now : Int}
    {f : Except String String} {c : CacheEntry}
    (hc : cache key = some c) (ht : now - c.timestamp < CACHE_TTL) :
    getCachedVersion cache key now f = (.ok c.version, cache, false) := by
  unfold getCachedVersion
  split
  · rename_i cached hcached
    rw [hc] at hcached
    injection hcached with hcc
    subst hcc
    rw [if_pos ht]
  · rename_i hnone
    rw [hc] at hnone
    cases hnone

/-- With no fresh entry, a successful fetch is stored under the key with
the current timestamp. -/
theorem getCachedVersion_fetch_ok {cache : Cache} {key : String} {now : Int}
    {v : String}
    (hmiss : ∀ c, cache key = some c → CACHE_TTL ≤ now - c.timestamp) :
    getCachedVersion cache key now (.ok v) =
      (.ok v, cacheSet cache key ⟨v, now⟩, true) := by
  unfold getCachedVersion
  split
  · rename_i cached hcached
    have := hmiss cached hcached
    rw [if_neg (by omega)]
  · rfl

/-- With no fresh entry, a failed fetch propagates the error and leaves
the cache untouched. -/
theorem getCachedVersion_fetch_err {cache : Cache} {key : String} {now : Int}
    {e : String}
    (hmiss : ∀ c, cache key = some c → CACHE_TTL ≤ now - c.timestamp) :
    getCachedVersion cache key now (.error e) = (.error e, cache, true) := by
  unfold getCachedVersion
  split
  · rename_i cached hcached
    have := hmiss cached hcached
    rw [if_neg (by omega)]
  · rfl

/-- Whatever the fetcher produces, a call with no fresh entry invokes it. -/
theorem getCachedVersion_fetches {cache : Cache} {key : String} {now : Int}
    {f : Except String String}
    (hmiss : ∀ c, cache key = some c → CACHE_TTL ≤ now - c.timestamp) :
    (getCachedVersion cache key now f).2.2 = true := by
  cases f with
  | ok v => rw [getCachedVersion_fetch_ok hmiss]
  | error e => rw [getCachedVersion_fetch_err hmiss]

/-- C6, counterexample to the claim as stated. The cache holds an entry
written at time 0; a call at `t = 3599999` succeeds from the cache
(without fetching), `t' - t = 1` millisecond is well under the 1-hour
TTL, yet the second call at `t' = 3600000` invokes the fetcher — the TTL
window is anchored at the entry's write time, not at the previous
successful call. -/
theorem c6_cache_ttl_claim_false :
    (getCachedVersion c6Cache "mac-x64" 3599999 (.ok "2.0.0")).1 = .ok "1.0.0" ∧
    (getCachedVersion c6Cache "mac-x64" 3599999 (.ok "2.0.0")).2.2 = false ∧
    ((3600000 : Int) - 3599999 < CACHE_TTL) ∧
    (getCachedVersion ((getCachedVersion c6Cache "mac-x64" 3599999 (.ok "2.0.0")).2.1)
        "mac-x64" 3600000 (.ok "2.0.0")).2.2 = true :=
  ⟨rfl, rfl, by decide, rfl⟩

/-- C6, amended. If a `getLatestVersion` call at time `t` succeeds via the
fetch path (a cache miss that stores the fetched version with timestamp
`t`), then a second call at `t'` with `t' - t` under the TTL returns that
version from the cache without invoking the fetcher, and a call with
`t' - t` at or past the TTL invokes the fetcher again. -/
theorem c6_cache_ttl (cache : Cache) (key : String) (t t' : Int) (v : String)
    (f' : Except String String)
    (hmiss : ∀ c, cache key = some c → CACHE_TTL ≤ t - c.timestamp) :
    (getCachedVersion cache key t (.ok v)).2.2 = true ∧
    (t' - t < CACHE_TTL →
      getCachedVersion ((getCachedVersion cache key t (.ok v)).2.1) key t' f' =
        (.ok v, (getCachedVersion cache key t (.ok v)).2.1, false)) ∧
    (CACHE_TTL ≤ t' - t →
      (getCachedVersion ((getCachedVersion cache key t (.ok v)).2.1) key t' f').2.2 =
        true) := by
  have h1 := getCachedVersion_fetch_ok (v := v) hmiss
  have hkey : (getCachedVersion cache key t (.ok v)).2.1 key = some ⟨v, t⟩ := by
    rw [h1]
    unfold cacheSet
    simp
  refine ⟨by rw [h1], ?_, ?_⟩
  · intro hlt
    rw [getCachedVersion_hit hkey hlt]
  · intro hge
    refine getCachedVersion_fetches ?_
    intro c hc
    rw [hkey] at hc
    injection hc with hcc
    subst hcc
    simpa using hge

/-- Witness for C6 (amended): fresh cache, fetch at time 0, cache hit at
time 1, refetch at time 3600000. -/
theorem c6_cache_ttl_witness :
    (getCachedVersion (fun _ => none) "mac-arm64" 0 (.ok "1.0")).2.2 = true ∧
    getCachedVersion ((getCachedVersion (fun _ => none) "mac-arm64" 0 (.ok "1.0")).2.1)
        "mac-arm64" 1 (.ok "9.9") =
      (.ok "1.0", (getCachedVersion (fun _ => none) "mac-arm64" 0 (.ok "1.0")).2.1, false) ∧
    (getCachedVersion ((getCachedVersion (fun _ => none) "mac-arm64" 0 (.ok "1.0")).2.1)
        "mac-arm64" 3600000 (.ok "9.9")).2.2 = true :=
  ⟨(c6_cache_ttl (fun _ => none) "mac-arm64" 0 1 "1.0" (.ok "9.9")
      (fun c h => nomatch h)).1,
    (c6_cache_ttl (fun _ => none) "mac-arm64" 0 1 "1.0" (.ok "9.9")
      (fun c h => nomatch h)).2.1 (by decide),
    (c6_cache_ttl (fun _ => none) "mac-arm64" 0 3600000 "1.0" (.ok "9.9")
      (fun c h => nomatch h)).2.2 (by decide)⟩

/-- C7, counterexample to the claim as stated. A stale entry (written at
time 0, queried at the TTL) whose refresh fetch fails is NOT removed: the
error propagates but the old entry is still present afterwards, so "the
cache entry for that key is afterwards absent — removed or never
written" fails on the code. -/
theorem c7_cache_entry_retained :
    (getCachedVersion c7Cache "linux-x64" CACHE_TTL (.error "network failure")).1 =
      .error "network failure" ∧
    (getCachedVersion c7Cache "linux-x64" CACHE_TTL (.error "network failure")).2.1
        "linux-x64" = some ⟨"1.0.0", 0⟩ :=
  ⟨rfl, rfl⟩

/-- C7, amended. When a call reaches the fetch path (no fresh entry for
the key) and the fetcher fails, the error propagates and the cache is left
exactly as it was — no new entry is written; since any retained entry was
already stale, every later call at a time `t'' ≥ now` invokes the fetcher
(the failure never installs an entry that satisfies a later call without a
fetch). -/
theorem c7_fetch_failure (cache : Cache) (key : String) (now : Int) (e : String)
    (t'' : Int) (f'' : Except String String)
    (hmiss : ∀ c, cache key = some c → CACHE_TTL ≤ now - c.timestamp) :
    getCachedVersion cache key now (.error e) = (.error e, cache, true) ∧
    (now ≤ t'' → (getCachedVersion cache key t'' f'').2.2 = true) := by
  refine ⟨getCachedVersion_fetch_err hmiss, fun hle => getCachedVersion_fetches ?_⟩
  intro c hc
  have := hmiss c hc
  omega

/-- Witness for C7 (amended): empty cache, failing fetch at time 5, next
call at time 6 fetches again. -/
theorem c7_fetch_failure_witness :
    getCachedVersion (fun _ => none) "win-x64" 5 (.error "boom") =
      (.error "boom", (fun _ => none : Cache), true) ∧
    (getCachedVersion (fun _ => none : Cache) "win-x64" 6 (.ok "2.0")).2.2 = true :=
  ⟨(c7_fetch_failure (fun _ => none) "win-x64" 5 "boom" 6 (.ok "2.0")
      (fun c h => nomatch h)).1,
    (c7_fetch_failure (fun _ => none) "win-x64" 5 "boom" 6 (.ok "2.0")
      (fun c h => nomatch h)).2 (by decide)⟩

/-! ## Arc (C9) -/

/-- C9. With no fresh cache entry for the key, Arc's `getLatestVersion`
returns the literal `"latest"` for mac (either architecture) and for
windows/x64, and fails with the unsupported-platform error on linux. -/
theorem c9_arc_latest_version (cache : Cache) (now : Int)
    (platform : SupportedPlatform) (arch : SupportedArch)
    (hmiss : ∀ c, cache (versionCacheKey platform arch) = some c →
      CACHE_TTL ≤ now - c.timestamp) :
    ((platform = .mac ∨ (platform = .windows ∧ arch = .x64)) →
      (arcGetLatestVersion cache now platform arch).1 = .ok "latest") ∧
    (platform = .linux →
      (arcGetLatestVersion cache now platform arch).1 =
        .error "Arc Browser is only supported on macOS and Windows.") := by
  constructor
  · intro hsupp
    have hfetch : arcFetcher platform arch = Except.ok "latest" := by
      rcases hsupp with hmac | ⟨hwin, hx64⟩
      · subst hmac; rfl
      · subst hwin; subst hx64; rfl
    unfold arcGetLatestVersion
    rw [hfetch, getCachedVersion_fetch_ok hmiss]
  · intro hlin
    subst hlin
    have hfetch : arcFetcher .linux arch =
        Except.error "Arc Browser is only supported on macOS and Windows." := rfl
    unfold arcGetLatestVersion
    rw [hfetch, getCachedVersion_fetch_err hmiss]

/-- Witness for C9: a fresh resolver (empty cache) on mac/arm64 yields
`"latest"`, and on linux/x64 the unsupported-platform error. -/
theorem c9_arc_latest_version_witness :
    (arcGetLatestVersion (fun _ => none) 0 .mac .arm64).1 = .ok "latest" ∧
    (arcGetLatestVersion (fun _ => none) 0 .linux .x64).1 =
      .error "Arc Browser is only supported on macOS and Windows." :=
  ⟨(c9_arc_latest_version (fun _ => none) 0 .mac .arm64
      (fun c h => nomatch h)).1 (Or.inl rfl),
    (c9_arc_latest_version (fun _ => none) 0 .linux .x64
      (fun c h => nomatch h)).2 rfl⟩

/-! ## Chrome curated-table resolution (C8) -/

theorem mem_orderedInsertV {a x : String} :
    ∀ {l : List String}, x ∈ orderedInsertV a l ↔ x = a ∨ x ∈ l := by
  intro l
  induction l with
  | nil => simp [orderedInsertV]
  | cons b l' ih =>
    by_cases hab : compareVersions a b ≤ 0
    · simp [orderedInsertV, hab]
    · simp [orderedInsertV, hab, ih]
      tauto

theorem sorted_orderedInsertV {a : String} :
    ∀ {l : List String},
      List.Pairwise (fun x y => compareVersions x y ≤ 0) l →
      List.Pairwise (fun x y => compareVersions x y ≤ 0) (orderedInsertV a l) := by
  intro l
  induction l with
  | nil => intro _; simp [orderedInsertV]
  | cons b l' ih =>
    intro h
    rw [List.pairwise_cons] at h
    obtain ⟨hb, hl'⟩ := h
    by_cases hab : compareVersions a b ≤ 0
    · rw [orderedInsertV, if_pos hab, List.pairwise_cons]
      refine ⟨?_, List.pairwise_cons.mpr ⟨hb, hl'⟩⟩
      intro y hy
      rcases List.mem_cons.mp hy with rfl | hy'
      · exact hab
      · exact compareVersions_le_trans hab (hb y hy')
    · rw [orderedInsertV, if_neg hab, List.pairwise_cons]
      refine ⟨?_, ih hl'⟩
      intro y hy
      rcases mem_orderedInsertV.mp hy with rfl | hy'
      · have := compareVersions_antisymm y b
        omega
      · exact hb y hy'

theorem mem_sortVersions {x : String} :
    ∀ {l : List String}, x ∈ sortVersions l ↔ x ∈ l := by
  intro l
  induction l with
  | nil => simp [sortVersions]
  | cons a l' ih => simp [sortVersions, mem_orderedInsertV, ih]

theorem sorted_sortVersions :
    ∀ l : List String,
      List.Pairwise (fun x y => compareVersions x y ≤ 0) (sortVersions l) := by
  intro l
  induction l with
  | nil => simp [sortVersions]
  | cons a l' ih => exact sorted_orderedInsertV ih

theorem find?_min_of_sorted {p : String → Bool} :
    ∀ {l : List String} {v : String},
      List.Pairwise (fun x y => compareVersions x y ≤ 0) l →
      l.find? p = some v →
      p v = true ∧ v ∈ l ∧ ∀ w ∈ l, p w = true → compareVersions v w ≤ 0 := by
  intro l
  induction l with
  | nil => intro v _ hf; cases hf
  | cons a l' ih =>
    intro v hs hf
    rw [List.pairwise_cons] at hs
    obtain ⟨ha, hl'⟩ := hs
    by_cases hpa : p a
    · rw [List.find?_cons_of_pos _ hpa] at hf
      obtain rfl : a = v := by injection hf
      refine ⟨hpa, List.mem_cons_self _ _, ?_⟩
      intro w hw _
      rcases List.mem_cons.mp hw with rfl | hw'
      · have := compareVersions_refl w
        omega
      · exact ha w hw'
    · rw [List.find?_cons_of_neg _ hpa] at hf
      obtain ⟨hpv, hmem, hmin⟩ := ih hl' hf
      refine ⟨hpv, List.mem_cons_of_mem _ hmem, ?_⟩
      intro w hw hpw
      rcases List.mem_cons.mp hw with rfl | hw'
      · exact absurd hpw (by simp [hpa])
      · exact hmin w hw' hpw

theorem getLastD_max_of_sorted :
    ∀ {l : List String} (d : String), l ≠ [] →
      List.Pairwise (fun x y => compareVersions x y ≤ 0) l →
      l.getLastD d ∈ l ∧ ∀ w ∈ l, compareVersions w (l.getLastD d) ≤ 0 := by
  intro l
  induction l with
  | nil => intro d hne _; exact absurd rfl hne
  | cons a l' ih =>
    intro d _ hs
    rw [List.pairwise_cons] at hs
    obtain ⟨ha, hl'⟩ := hs
    rw [List.getLastD_cons]
    cases l' with
    | nil =>
      refine ⟨List.mem_cons_self _ _, ?_⟩
      intro w hw
      rcases List.mem_cons.mp hw with rfl | hw'
      · have := compareVersions_refl w
        simp [List.getLastD]
        omega
      · cases hw'
    | cons b l'' =>
      obtain ⟨hmem, hmax⟩ := ih a (by simp) hl'
      refine ⟨List.mem_cons_of_mem _ hmem, ?_⟩
      intro w hw
      rcases List.mem_cons.mp hw with rfl | hw'
      · exact ha _ hmem
      · exact hmax w hw'

theorem chromeLookup_of_mem :
    ∀ {data : ChromeVersionsData} {e : String × ChromeUrls},
      e ∈ data → (data.map Prod.fst).Nodup → chromeLookup data e.1 = some e.2 := by
  intro data
  induction data with
  | nil => intro e he _; cases he
  | cons d rest ih =>
    intro e he hnd
    rw [List.map_cons, List.nodup_cons] at hnd
    obtain ⟨hd, hrest⟩ := hnd
    by_cases hde : d.1 == e.1
    · have hdeq : d.1 = e.1 := by simpa using hde
      have hed : e = d := by
        rcases List.mem_cons.mp he with rfl | he'
        · rfl
        · exact absurd (hdeq ▸ List.mem_map_of_mem Prod.fst he') hd
      subst hed
      simp [chromeLookup, List.find?_cons_of_pos, hde]
    · have hne : e ≠ d := by
        intro hed
        subst hed
        simp at hde
      have he' : e ∈ rest := by
        rcases List.mem_cons.mp he with rfl | h
        · exact absurd rfl hne
        · exact h
      rw [chromeLookup, List.find?_cons_of_neg _ (by simpa using hde)]
      exact ih he' hrest

theorem mem_avail_entry {data : ChromeVersionsData} {platform : SupportedPlatform}
    {arch : SupportedArch} {ver : String}
    (h : ver ∈ chromeAvailableVersions data platform arch) :
    ∃ urls, (ver, urls) ∈ data ∧ optTruthy (chromeUrlField urls platform) = true := by
  rw [chromeAvailableVersions, mem_sortVersions, List.mem_filter] at h
  obtain ⟨hmap, _⟩ := h
  rw [List.mem_map] at hmap
  obtain ⟨e, hmem, hfst⟩ := hmap
  rw [List.mem_filter] at hmem
  refine ⟨e.2, ?_, hmem.2⟩
  rw [← hfst, Prod.mk.eta]
  exact hmem.1

/-- Selection policy of `findClosestVersion` on a nonempty availability
list (free of the falsy empty-string version): the smallest available
version at least the target, else the newest available version. -/
theorem findClosestVersion_spec (data : ChromeVersionsData) (target : String)
    (platform : SupportedPlatform) (arch : SupportedArch)
    (hne : chromeAvailableVersions data platform arch ≠ [])
    (hno : "" ∉ chromeAvailableVersions data platform arch) :
    ∃ sel, findClosestVersion data target platform arch = .ok sel ∧
      sel ∈ chromeAvailableVersions data platform arch ∧
      (∀ w ∈ chromeAvailableVersions data platform arch,
        0 ≤ compareVersions w target →
          0 ≤ compareVersions sel target ∧ compareVersions sel w ≤ 0) ∧
      ((∀ w ∈ chromeAvailableVersions data platform arch,
          compareVersions w target < 0) →
        ∀ w ∈ chromeAvailableVersions data platform arch,
          compareVersions w sel ≤ 0) := by
  have hsorted : List.Pairwise (fun x y => compareVersions x y ≤ 0)
      (chromeAvailableVersions data platform arch) := by
    rw [chromeAvailableVersions]
    exact sorted_sortVersions _
  have hie : ¬ ((chromeAvailableVersions data platform arch).isEmpty = true) := by
    rw [List.isEmpty_iff]
    exact hne
  unfold findClosestVersion
  rw [if_neg hie]
  rcases hf : (chromeAvailableVersions data platform arch).find?
      (fun version => decide (0 ≤ compareVersions version target)) with _ | v
  · obtain ⟨hmem, hmax⟩ := getLastD_max_of_sorted "" hne hsorted
    refine ⟨(chromeAvailableVersions data platform arch).getLastD "", rfl, hmem, ?_,
      fun _ => hmax⟩
    intro w hw hge
    have := List.find?_eq_none.mp hf w hw
    simp at this
    omega
  · obtain ⟨hpv, hmem, hmin⟩ := find?_min_of_sorted hsorted hf
    have hv0 : 0 ≤ compareVersions v target := by simpa using hpv
    have hvne : ¬ (v == "") = true := by
      simp only [beq_iff_eq]
      intro hveq
      exact hno (hveq ▸ hmem)
    refine ⟨v, by simp [hvne], hmem, ?_, ?_⟩
    · intro w hw hge
      exact ⟨hv0, hmin w hw (by simpa using hge)⟩
    · intro hall
      exact absurd (hall v hmem) (by omega)

/-- C8. Chrome's download-URL resolution selects from the curated table
the smallest available version (those with a URL for the platform, and on
mac/arm64 only versions at least `88.0.4324.150`) comparing at least the
requested version, falling back to the newest available version when none
does; the returned URL is exactly the table's entry for the selected
version (the windows resolver always consults the table as
`('windows','x64')`). No feed pagination or artifact probing is involved:
the resolver is `findClosestVersion` plus a table lookup. -/
theorem c8_chrome_closest_version (data : ChromeVersionsData) (target : String)
    (platform : SupportedPlatform) (arch : SupportedArch)
    (hne : chromeAvailableVersions data platform (chromeEffArch platform arch) ≠ [])
    (hno : "" ∉ chromeAvailableVersions data platform (chromeEffArch platform arch))
    (hnd : (data.map Prod.fst).Nodup) :
    ∃ sel,
      findClosestVersion data target platform (chromeEffArch platform arch) = .ok sel ∧
      sel ∈ chromeAvailableVersions data platform (chromeEffArch platform arch) ∧
      (∀ w ∈ chromeAvailableVersions data platform (chromeEffArch platform arch),
        0 ≤ compareVersions w target →
          0 ≤ compareVersions sel target ∧ compareVersions sel w ≤ 0) ∧
      ((∀ w ∈ chromeAvailableVersions data platform (chromeEffArch platform arch),
          compareVersions w target < 0) →
        ∀ w ∈ chromeAvailableVersions data platform (chromeEffArch platform arch),
          compareVersions w sel ≤ 0) ∧
      ∃ urls u, chromeLookup data sel = some urls ∧
        chromeUrlField urls platform = some u ∧ u ≠ "" ∧
        chromeDownloadUrlResolver data platform arch target = .ok u := by
  obtain ⟨sel, hfc, hmem, hmin, hmax⟩ :=
    findClosestVersion_spec data target platform (chromeEffArch platform arch) hne hno
  obtain ⟨urls, hentry, htruthy⟩ := mem_avail_entry hmem
  have hlook : chromeLookup data sel = some urls :=
    chromeLookup_of_mem hentry hnd
  rcases hfield : chromeUrlField urls platform with _ | u
  · rw [hfield] at htruthy
    simp [optTruthy] at htruthy
  · have hu : u ≠ "" := by
      rw [hfield] at htruthy
      simpa [optTruthy] using htruthy
    refine ⟨sel, hfc, hmem, hmin, hmax, urls, u, hlook, hfield, hu, ?_⟩
    cases platform with
    | windows =>
      have hfc' : findClosestVersion data target .windows .x64 = .ok sel := hfc
      have hwin : urls.win = some u := hfield
      rw [chromeDownloadUrlResolver, hfc']
      simp [Except.map, hlook, hwin]
    | mac =>
      have hfc' : findClosestVersion data target .mac arch = .ok sel := hfc
      have hmac : urls.mac = some u := hfield
      rw [chromeDownloadUrlResolver, hfc']
      simp [Except.map, hlook, hmac]
    | linux =>
      have hfc' : findClosestVersion data target .linux arch = .ok sel := hfc
      have hlin : urls.linux = some u := hfield
      rw [chromeDownloadUrlResolver, hfc']
      simp [Except.map, hlook, hlin]

/-- Witness for C8: on a two-entry table, requesting `"1.5"` on
windows/x64 selects `"2.0"` and returns its windows URL. -/
theorem c8_chrome_closest_version_witness :
    ∃ sel,
      findClosestVersion c8Table "1.5" .windows (chromeEffArch .windows .x64) = .ok sel ∧
      sel ∈ chromeAvailableVersions c8Table .windows (chromeEffArch .windows .x64) ∧
      (∀ w ∈ chromeAvailableVersions c8Table .windows (chromeEffArch .windows .x64),
        0 ≤ compareVersions w "1.5" →
          0 ≤ compareVersions sel "1.5" ∧ compareVersions sel w ≤ 0) ∧
      ((∀ w ∈ chromeAvailableVersions c8Table .windows (chromeEffArch .windows .x64),
          compareVersions w "1.5" < 0) →
        ∀ w ∈ chromeAvailableVersions c8Table .windows (chromeEffArch .windows .x64),
          compareVersions w sel ≤ 0) ∧
      ∃ urls u, chromeLookup c8Table sel = some urls ∧
        chromeUrlField urls .windows = some u ∧ u ≠ "" ∧
        chromeDownloadUrlResolver c8Table .windows .x64 "1.5" = .ok u :=
  c8_chrome_closest_version c8Table "1.5" .windows .x64
    (by decide) (by decide) (by decide)

/-! ## Template substitution and Brave (C10) -/

theorem substGo_nil (vars : String → Option String) : substGo vars [] = .ok [] := by
  rw [substGo]

theorem substGo_cons_none (vars : String → Option String) (c : Char) (cs : List Char)
    (h : tryPlaceholder (c :: cs) = none) :
    substGo vars (c :: cs) = (substGo vars cs).map (fun t => c :: t) := by
  rw [substGo, h]

theorem substGo_cons_some (vars : String → Option String) (c : Char) (cs : List Char)
    (w : String) (rest : List Char) (v : String)
    (h : tryPlaceholder (c :: cs) = some (w, rest)) (hv : vars w = some v) :
    substGo vars (c :: cs) = (substGo vars rest).map (fun t => v.data ++ t) := by
  rw [substGo, h]
  simp only [hv]

theorem tryPlaceholder_not_brace {c : Char} (hc : c ≠ '\x7b') (cs : List Char) :
    tryPlaceholder (c :: cs) = none := by
  cases cs with
  | nil => rfl
  | cons c2 r => simp [tryPlaceholder, hc]

/-- Characters other than an opening brace pass through the scan. -/
theorem substGo_clean_append (vars : String → Option String) :
    ∀ (s rest : List Char), (∀ ch ∈ s, ch ≠ '\x7b') →
      substGo vars (s ++ rest) = (substGo vars rest).map (fun t => s ++ t) := by
  intro s
  induction s with
  | nil =>
    intro rest _
    rw [List.nil_append]
    cases substGo vars rest <;> simp [Except.map]
  | cons c s' ih =>
    intro rest hs
    rw [List.cons_append,
      substGo_cons_none vars c (s' ++ rest)
        (tryPlaceholder_not_brace (hs c (List.mem_cons_self _ _)) _),
      ih rest (fun ch h => hs ch (List.mem_cons_of_mem _ h))]
    cases substGo vars rest <;> simp [Except.map]

/-- A brace-free input is returned verbatim. -/
theorem substGo_clean (vars : String → Option String) (s : List Char)
    (hs : ∀ ch ∈ s, ch ≠ '\x7b') : substGo vars s = .ok s := by
  have h := substGo_clean_append vars s [] hs
  rw [List.append_nil] at h
  rw [h, substGo_nil]
  simp [Except.map]

theorem takeWhile_append_of_all {p : Char → Bool} :
    ∀ (a b : List Char), (∀ c ∈ a, p c = true) →
      List.takeWhile p (a ++ b) = a ++ List.takeWhile p b := by
  intro a
  induction a with
  | nil => intro b _; simp
  | cons c a' ih =>
    intro b ha
    rw [List.cons_append, List.takeWhile_cons, if_pos (ha c (List.mem_cons_self _ _)),
      ih b (fun x hx => ha x (List.mem_cons_of_mem _ hx)), List.cons_append]

theorem dropWhile_append_of_all {p : Char → Bool} :
    ∀ (a b : List Char), (∀ c ∈ a, p c = true) →
      List.dropWhile p (a ++ b) = List.dropWhile p b := by
  intro a
  induction a with
  | nil => intro b _; simp
  | cons c a' ih =>
    intro b ha
    rw [List.cons_append, List.dropWhile_cons, if_pos (ha c (List.mem_cons_self _ _))]
    exact ih b (fun x hx => ha x (List.mem_cons_of_mem _ hx))

/-- A well-formed `\x7b\x7bword\x7d\x7d` placeholder is matched and its
variable spliced in. -/
theorem substGo_placeholder (vars : String → Option String) (w v : String)
    (rest : List Char) (hw : w.data ≠ [])
    (hwc : ∀ ch ∈ w.data, isWordChar ch = true) (hv : vars w = some v) :
    substGo vars ('\x7b' :: '\x7b' :: (w.data ++ ('\x7d' :: '\x7d' :: rest))) =
      (substGo vars rest).map (fun t => v.data ++ t) := by
  have hmk : String.mk w.data = w := rfl
  have ht1 : List.takeWhile isWordChar ('\x7d' :: '\x7d' :: rest) = [] := by
    rw [List.takeWhile_cons]
    rw [if_neg (by decide)]
  have ht2 : List.dropWhile isWordChar ('\x7d' :: '\x7d' :: rest) =
      '\x7d' :: '\x7d' :: rest := by
    rw [List.dropWhile_cons]
    rw [if_neg (by decide)]
  have htp : tryPlaceholder ('\x7b' :: '\x7b' :: (w.data ++ ('\x7d' :: '\x7d' :: rest))) =
      some (w, rest) := by
    simp [tryPlaceholder, takeWhile_append_of_all _ _ hwc,
      dropWhile_append_of_all _ _ hwc, ht1, ht2, hw, hmk]
  rw [substGo_cons_some _ _ _ _ _ _ htp hv]

/-- An expression placeholder (`\x7b\x7b` followed by a non-word
continuation, brace-free) passes through the scan verbatim. -/
theorem substGo_expr (vars : String → Option String) (E : List Char)
    (hE2 : tryPlaceholder ('\x7b' :: '\x7b' :: E) = none)
    (hE1 : tryPlaceholder ('\x7b' :: E) = none)
    (hEc : ∀ ch ∈ E, ch ≠ '\x7b') :
    substGo vars ('\x7b' :: '\x7b' :: E) = .ok ('\x7b' :: '\x7b' :: E) := by
  rw [substGo_cons_none _ _ _ hE2, substGo_cons_none _ _ _ hE1,
    substGo_clean _ _ hEc]
  rfl

/-- C10. On windows and on linux, Brave's `getDownloadUrl` substitutes
only the `\x7b\x7bversion\x7d\x7d` placeholder: the conditional-expression
placeholders in the templates do not match `/\x7b\x7b(\w+)\x7d\x7d/` (their
bodies are not a single word), so their text passes through verbatim into
the returned URL, for every version string and architecture; the returned
URL literally contains the unsubstituted expression placeholder. -/
theorem c10_brave_placeholder_passthrough (version : String) (arch : SupportedArch) :
    (braveGetDownloadUrl .windows version arch =
      .ok ("https://github.com/brave/brave-browser/releases/download/v" ++ version ++
        "/BraveBrowserSetup\x7b\x7barch === \"arm64\" ? \"ARM64\" : \"\"\x7d\x7d.exe")) ∧
    (braveGetDownloadUrl .linux version arch =
      .ok ("https://github.com/brave/brave-browser/releases/download/v" ++ version ++
        "/brave-browser_" ++ version ++
        "_\x7b\x7barch === \"x64\" ? \"amd64\" : \"arm64\"\x7d\x7d.deb")) ∧
    (∃ pre post, ("https://github.com/brave/brave-browser/releases/download/v" ++ version ++
        "/BraveBrowserSetup\x7b\x7barch === \"arm64\" ? \"ARM64\" : \"\"\x7d\x7d.exe").data =
      pre ++ "\x7b\x7barch === \"arm64\" ? \"ARM64\" : \"\"\x7d\x7d".data ++ post) ∧
    (∃ pre post, ("https://github.com/brave/brave-browser/releases/download/v" ++ version ++
        "/brave-browser_" ++ version ++
        "_\x7b\x7barch === \"x64\" ? \"amd64\" : \"arm64\"\x7d\x7d.deb").data =
      pre ++ "\x7b\x7barch === \"x64\" ? \"amd64\" : \"arm64\"\x7d\x7d".data ++ post) := by
  refine ⟨?_, ?_, ?_, ?_⟩
  · unfold braveGetDownloadUrl replaceTemplate
    rw [show (braveDownloadUrlTemplate SupportedPlatform.windows).data =
        "https://github.com/brave/brave-browser/releases/download/v".data ++
          ('\x7b' :: '\x7b' :: ("version".data ++ ('\x7d' :: '\x7d' ::
            ("/BraveBrowserSetup".data ++ ('\x7b' :: '\x7b' ::
              "arch === \"arm64\" ? \"ARM64\" : \"\"\x7d\x7d.exe".data))))) from rfl]
    rw [substGo_clean_append _ _ _ (by decide)]
    rw [substGo_placeholder _ "version" version _ (by decide) (by decide) rfl]
    rw [substGo_clean_append _ _ _ (by decide)]
    rw [substGo_expr _ _ (by decide) (by decide) (by decide)]
    simp only [Except.map]
    congr 1
  · unfold braveGetDownloadUrl replaceTemplate
    rw [show (braveDownloadUrlTemplate SupportedPlatform.linux).data =
        "https://github.com/brave/brave-browser/releases/download/v".data ++
          ('\x7b' :: '\x7b' :: ("version".data ++ ('\x7d' :: '\x7d' ::
            ("/brave-browser_".data ++ ('\x7b' :: '\x7b' :: ("version".data ++
              ('\x7d' :: '\x7d' :: ("_".data ++ ('\x7b' :: '\x7b' ::
                "arch === \"x64\" ? \"amd64\" : \"arm64\"\x7d\x7d.deb".data)))))))))
        from rfl]
    rw [substGo_clean_append _ _ _ (by decide)]
    rw [substGo_placeholder _ "version" version _ (by decide) (by decide) rfl]
    rw [substGo_clean_append _ _ _ (by decide)]
    rw [substGo_placeholder _ "version" version _ (by decide) (by decide) rfl]
    rw [substGo_clean_append _ _ _ (by decide)]
    rw [substGo_expr _ _ (by decide) (by decide) (by decide)]
    simp only [Except.map]
    congr 1
    apply String.ext
    simp [String.data_append, List.append_assoc]
  · refine ⟨"https://github.com/brave/brave-browser/releases/download/v".data ++
      version.data ++ "/BraveBrowserSetup".data, ".exe".data, ?_⟩
    simp [String.data_append, List.append_assoc]
  · refine ⟨"https://github.com/brave/brave-browser/releases/download/v".data ++
      version.data ++ "/brave-browser_".data ++ version.data ++ "_".data,
      ".deb".data, ?_⟩
    simp [String.data_append, List.append_assoc]
